import Mathlib

/-!
# Longest run of set bits: a model of `bit1count.cpp`

The C++ function `countMaxContinuousBit1` scans a `uint32_t` from bit 0 upward,
testing the lowest bit and shifting right until the value is zero.  The model
below keeps every local variable of the source, one field per variable, and
one Lean function per piece of control flow:

* `builtin_clz`  : the compiler intrinsic `__builtin_clz` (undefined at 0),
* `loopBody`     : one pass through the body of the `while`,
* `whileLoop`    : the `while (num > 0)` loop, with an iteration budget,
* `countMaxContinuousBit1` : the whole function.

`uint32_t` values are natural numbers below `2 ^ 32`; the `int` locals are
integers (none of them leaves the range `-1 .. 32`).
-/

namespace Bit1Count

/-- Ways in which a run of the model can fail to produce a value. -/
inductive Fault where
  /-- `__builtin_clz` was called with argument 0 (undefined behaviour). -/
  | clzOfZero
  /-- The iteration budget of the loop was used up before it exited. -/
  | outOfFuel
  deriving DecidableEq, Repr

deriving instance DecidableEq for Except

/-- The local variables of `countMaxContinuousBit1` (source lines 6-11);
`num` is the by-value parameter, which the loop shifts in place. -/
structure State where
  num : Nat
  count : Int
  times_shift : Int
  maxCount : Int
  startBit : Int
  maxStartBit : Int
  deriving DecidableEq, Repr

/-- Number of zero bits of `x` met when walking down from bit `k - 1` until
the first set bit (all `k` of them when no bit below `k` is set). -/
def leadingZeros (x : Nat) : Nat → Nat
  | 0 => 0
  | k + 1 => if x.testBit k then 0 else leadingZeros x k + 1

/-- The intrinsic `__builtin_clz` on a 32-bit unsigned argument: the number of
leading zero bits; the result is undefined when the argument is 0. -/
def builtin_clz (x : Nat) : Except Fault Int :=
  if x = 0 then .error .clzOfZero else .ok (leadingZeros x 32)

/-- The values of the locals on entry to the loop (source lines 7-11). -/
def initState (num : Nat) : State :=
  { num := num, count := 0, times_shift := 0, maxCount := 0,
    startBit := -1, maxStartBit := -1 }

/-- One execution of the body of the `while` loop (source lines 15-29). -/
def loopBody (s : State) : Except Fault State := do
  let s1 ←
    if s.num &&& 1 ≠ 0 then do
      let count := s.count + 1
      let startBit ←
        if s.startBit = -1 then do
          let z ← builtin_clz s.num
          pure (31 - z)
        else pure s.startBit
      let best : Int × Int :=
        if count > s.maxCount then (count, s.times_shift)
        else (s.maxCount, s.maxStartBit)
      pure { s with count := count, startBit := startBit,
                    maxCount := best.1, maxStartBit := best.2 }
    else
      pure { s with count := 0, startBit := -1 }
  pure { s1 with num := s1.num >>> 1, times_shift := s1.times_shift + 1 }

/-- The loop `while (num > 0) { ... }` (source lines 14-30), allowed at most
`fuel` executions of its body. -/
def whileLoop : Nat → State → Except Fault State
  | 0, s => if s.num > 0 then .error .outOfFuel else .ok s
  | fuel + 1, s => if s.num > 0 then loopBody s >>= whileLoop fuel else .ok s

/-- The function `countMaxContinuousBit1` (source lines 6-33): run the loop
from the initial locals and return `(maxCount, maxStartBit)`.  A 32-bit value
is zero after 32 right shifts, so 32 iterations are provided. -/
def countMaxContinuousBit1 (num : Nat) : Except Fault (Int × Int) := do
  let s ← whileLoop 32 (initState num)
  pure (s.maxCount, s.maxStartBit)

/-! ## Reference notions used to state the properties -/

/-- Bits `i .. i + L - 1` of `num` are all 1. -/
def AllOnes (num i L : Nat) : Prop := ∀ j, j < L → num.testBit (i + j) = true

instance (num i L : Nat) : Decidable (AllOnes num i L) := by
  unfold AllOnes; infer_instance

/-- Length of the block of consecutive 1 bits of `num` that sits immediately
below bit position `k` (0 when bit `k - 1` is clear or `k = 0`). -/
def onesBelow (num : Nat) : Nat → Nat
  | 0 => 0
  | k + 1 => if num.testBit k then onesBelow num k + 1 else 0

/-- The state reached by one pass through the loop body, written without the
error monad; `loopBody_eq` shows the body always succeeds with this state. -/
def bodyResult (s : State) : State :=
  if s.num % 2 = 1 then
    { num := s.num / 2
      count := s.count + 1
      times_shift := s.times_shift + 1
      maxCount := if s.count + 1 > s.maxCount then s.count + 1 else s.maxCount
      startBit := if s.startBit = -1 then 31 - (leadingZeros s.num 32 : Int) else s.startBit
      maxStartBit := if s.count + 1 > s.maxCount then s.times_shift else s.maxStartBit }
  else
    { num := s.num / 2
      count := 0
      times_shift := s.times_shift + 1
      maxCount := s.maxCount
      startBit := -1
      maxStartBit := s.maxStartBit }

/-- Number of significant bits of `num`: the index of its highest set bit plus
one, and 0 for `num = 0`. -/
def bitLength (num : Nat) : Nat := 32 - leadingZeros num 32

/-- The state in which the loop of `countMaxContinuousBit1 num` exits. -/
def finalState (num : Nat) : State := bodyResult^[bitLength num] (initState num)

/-- What the locals hold after the loop body has run `k` times on input `num`:
`count` is the block of 1 bits ending just below bit `k`, `maxCount` bounds
every block seen so far, and `maxStartBit` is the first position at which a
block reached `maxCount`. -/
structure Inv (num k : Nat) (s : State) : Prop where
  num_eq : s.num = num >>> k
  shift_eq : s.times_shift = k
  count_eq : s.count = onesBelow num k
  max_ge : ∀ j, j ≤ k → (onesBelow num j : Int) ≤ s.maxCount
  none_yet : s.maxCount = 0 → s.maxStartBit = -1
  best : 0 < s.maxCount → ∃ p : Nat, s.maxStartBit = p ∧ p < k ∧
    (onesBelow num (p + 1) : Int) = s.maxCount ∧
    ∀ j, j ≤ p → (onesBelow num j : Int) < s.maxCount

/-- The per-bit step of the loop applied `n` times in a row, without the
early exit: with `n = 32` every bit position 0..31 is visited in order. -/
def scanAllBits : Nat → State → Except Fault State
  | 0, s => .ok s
  | n + 1, s => loopBody s >>= scanAllBits n

/-- The result pair computed by visiting all 32 bit positions. -/
def countByFullScan (num : Nat) : Except Fault (Int × Int) := do
  let s ← scanAllBits 32 (initState num)
  pure (s.maxCount, s.maxStartBit)

/-- The loop body (source lines 15-29) with the intrinsic called on line 18
taken as a parameter, so that the arguments it is called on can be observed;
`loopBody` is the instance with `builtin_clz`. -/
def loopBodyWith (clz : Nat → Except Fault Int) (s : State) : Except Fault State := do
  let s1 ←
    if s.num &&& 1 ≠ 0 then do
      let count := s.count + 1
      let startBit ←
        if s.startBit = -1 then do
          let z ← clz s.num
          pure (31 - z)
        else pure s.startBit
      let best : Int × Int :=
        if count > s.maxCount then (count, s.times_shift)
        else (s.maxCount, s.maxStartBit)
      pure { s with count := count, startBit := startBit,
                    maxCount := best.1, maxStartBit := best.2 }
    else
      pure { s with count := 0, startBit := -1 }
  pure { s1 with num := s1.num >>> 1, times_shift := s1.times_shift + 1 }

/-! ## The loop body -/

theorem loopBody_eq (s : State) : loopBody s = .ok (bodyResult s) := by
  unfold loopBody bodyResult builtin_clz
  by_cases hodd : s.num % 2 = 1
  · have hne : s.num ≠ 0 := by omega
    by_cases hm : s.startBit = -1 <;> by_cases hc : s.count + 1 > s.maxCount <;>
      simp [Nat.and_one_is_mod, hodd, hne, hm, hc, Nat.shiftRight_one, bind, Except.bind, pure, Except.pure]
  · have hev : s.num % 2 = 0 := by omega
    simp [Nat.and_one_is_mod, hev, Nat.shiftRight_one, bind, Except.bind, pure, Except.pure]

theorem loopBody_num (s : State) : (bodyResult s).num = s.num / 2 := by
  unfold bodyResult; split <;> rfl

theorem loopBody_times_shift (s : State) :
    (bodyResult s).times_shift = s.times_shift + 1 := by
  unfold bodyResult; split <;> rfl

/-! ## Facts about `onesBelow` -/

theorem onesBelow_le (num : Nat) : ∀ k, onesBelow num k ≤ k
  | 0 => by simp [onesBelow]
  | k + 1 => by
    have ih := onesBelow_le num k
    unfold onesBelow; split <;> omega

/-- The block counted by `onesBelow num k` consists of 1 bits. -/
theorem onesBelow_bits (num : Nat) :
    ∀ k j, k ≤ j + onesBelow num k → j < k → num.testBit j = true
  | 0, j, _, hj => by omega
  | k + 1, j, hlo, hj => by
    unfold onesBelow at hlo
    by_cases hb : num.testBit k = true
    · rw [if_pos hb] at hlo
      rcases Nat.lt_or_ge j k with hjk | hjk
      · exact onesBelow_bits num k j (by omega) hjk
      · have : j = k := by omega
        rw [this]; exact hb
    · rw [if_neg hb] at hlo; omega

/-- The bit just under the block counted by `onesBelow num k` is 0. -/
theorem onesBelow_stop (num : Nat) :
    ∀ k j, j + onesBelow num k + 1 = k → num.testBit j = false
  | 0, j, h => by omega
  | k + 1, j, h => by
    unfold onesBelow at h
    by_cases hb : num.testBit k = true
    · rw [if_pos hb] at h
      exact onesBelow_stop num k j (by omega)
    · rw [if_neg hb] at h
      have : j = k := by omega
      rw [this]; simpa using hb

/-- A window of 1 bits is covered by the block ending where the window ends. -/
theorem AllOnes.le_onesBelow {num i : Nat} :
    ∀ {L : Nat}, AllOnes num i L → L ≤ onesBelow num (i + L)
  | 0, _ => Nat.zero_le _
  | L + 1, h => by
    have hprev : AllOnes num i L := fun j hj => h j (by omega)
    have ih := AllOnes.le_onesBelow hprev
    have hb : num.testBit (i + L) = true := h L (by omega)
    show L + 1 ≤ onesBelow num (i + L + 1)
    unfold onesBelow
    rw [if_pos hb]; omega

/-- The block counted by `onesBelow` is a window of 1 bits. -/
theorem allOnes_of_onesBelow {num i L : Nat} (h : L ≤ onesBelow num (i + L)) :
    AllOnes num i L := fun j hj =>
  onesBelow_bits num (i + L) (i + j) (by omega) (by omega)

theorem allOnes_iff_le_onesBelow (num i L : Nat) :
    AllOnes num i L ↔ L ≤ onesBelow num (i + L) :=
  ⟨AllOnes.le_onesBelow, allOnes_of_onesBelow⟩

/-- No set bit at or above position `n` means no block ends above `n`. -/
theorem onesBelow_eq_zero_of_lt {num n : Nat} (hn : num < 2 ^ n) :
    ∀ j, n < j → onesBelow num j = 0
  | 0, h => by omega
  | j + 1, h => by
    have hlt : num < 2 ^ j :=
      Nat.lt_of_lt_of_le hn (Nat.pow_le_pow_right (by decide) (by omega))
    have hb : num.testBit j = false := Nat.testBit_lt_two_pow hlt
    simp [onesBelow, hb]

/-! ## Loop invariant -/

theorem Inv.init (num : Nat) : Inv num 0 (initState num) where
  num_eq := by simp [initState]
  shift_eq := by simp [initState]
  count_eq := by simp [initState, onesBelow]
  max_ge := by
    intro j hj
    have : j = 0 := by omega
    subst this
    simp [initState, onesBelow]
  none_yet := by simp [initState]
  best := by simp [initState]

theorem Inv.maxCount_nonneg {num k : Nat} {s : State} (h : Inv num k s) :
    0 ≤ s.maxCount := by
  have := h.max_ge 0 (Nat.zero_le _)
  simpa [onesBelow] using this

theorem Inv.lowBit {num k : Nat} {s : State} (h : Inv num k s) :
    (s.num % 2 = 1) ↔ num.testBit k = true := by
  rw [h.num_eq, Nat.testBit_to_div_mod, Nat.shiftRight_eq_div_pow]
  simp

theorem Inv.step {num k : Nat} {s : State} (h : Inv num k s) :
    Inv num (k + 1) (bodyResult s) := by
  have hnum : (bodyResult s).num = num >>> (k + 1) := by
    rw [loopBody_num, h.num_eq, Nat.shiftRight_succ]
  have hshift : (bodyResult s).times_shift = ((k + 1 : Nat) : Int) := by
    rw [loopBody_times_shift, h.shift_eq]; push_cast; rfl
  have hc := h.count_eq
  have hmax0 := h.maxCount_nonneg
  have hcm : s.count ≤ s.maxCount := hc ▸ h.max_ge k (Nat.le_refl _)
  by_cases hb : num.testBit k = true
  · have hodd : s.num % 2 = 1 := h.lowBit.mpr hb
    have hob : onesBelow num (k + 1) = onesBelow num k + 1 := by
      simp [onesBelow, hb]
    by_cases hgt : s.count + 1 > s.maxCount
    · -- a new best block, ending at the current bit
      have hres : bodyResult s =
          { num := s.num / 2, count := s.count + 1, times_shift := s.times_shift + 1,
            maxCount := s.count + 1,
            startBit := if s.startBit = -1 then 31 - (leadingZeros s.num 32 : Int)
                        else s.startBit,
            maxStartBit := s.times_shift } := by
        simp [bodyResult, hodd, hgt]
      refine ⟨hnum, hshift, ?_, ?_, ?_, ?_⟩
      · rw [hres, hob]; simp only; rw [hc]; push_cast; rfl
      · intro j hj
        rw [hres]; simp only
        rcases Nat.lt_or_ge j (k + 1) with hlt | hge
        · have := h.max_ge j (by omega); omega
        · have : j = k + 1 := by omega
          rw [this, hob, hc]; push_cast; omega
      · rw [hres]; simp only
        intro h0
        have : (0 : Int) ≤ onesBelow num k := Int.natCast_nonneg _
        omega
      · rw [hres]; simp only
        intro _
        refine ⟨k, h.shift_eq, by omega, ?_, ?_⟩
        · rw [hob, hc]; push_cast; rfl
        · intro j hj
          have := h.max_ge j hj; omega
    · -- the best block so far stays
      have hres : bodyResult s =
          { num := s.num / 2, count := s.count + 1, times_shift := s.times_shift + 1,
            maxCount := s.maxCount,
            startBit := if s.startBit = -1 then 31 - (leadingZeros s.num 32 : Int)
                        else s.startBit,
            maxStartBit := s.maxStartBit } := by
        simp [bodyResult, hodd, hgt]
      have hcnn : (0 : Int) ≤ s.count := hc ▸ Int.natCast_nonneg _
      refine ⟨hnum, hshift, ?_, ?_, ?_, ?_⟩
      · rw [hres, hob]; simp only; rw [hc]; push_cast; rfl
      · intro j hj
        rw [hres]; simp only
        rcases Nat.lt_or_ge j (k + 1) with hlt | hge
        · exact h.max_ge j (by omega)
        · have : j = k + 1 := by omega
          rw [this, hob]; push_cast; omega
      · rw [hres]; simp only
        intro h0; omega
      · rw [hres]; simp only
        intro hpos
        obtain ⟨p, hp, hpk, hpe, hpl⟩ := h.best hpos
        exact ⟨p, hp, by omega, hpe, hpl⟩
  · have hev : ¬ s.num % 2 = 1 := fun hodd => hb (h.lowBit.mp hodd)
    have hob : onesBelow num (k + 1) = 0 := by
      simp [onesBelow, hb]
    have hres : bodyResult s =
        { num := s.num / 2, count := 0, times_shift := s.times_shift + 1,
          maxCount := s.maxCount, startBit := -1, maxStartBit := s.maxStartBit } := by
      simp [bodyResult, hev]
    refine ⟨hnum, hshift, ?_, ?_, ?_, ?_⟩
    · rw [hres, hob]; rfl
    · intro j hj
      rw [hres]; simp only
      rcases Nat.lt_or_ge j (k + 1) with hlt | hge
      · exact h.max_ge j (by omega)
      · have : j = k + 1 := by omega
        rw [this, hob]; exact hmax0
    · rw [hres]; exact h.none_yet
    · rw [hres]; simp only
      intro hpos
      obtain ⟨p, hp, hpk, hpe, hpl⟩ := h.best hpos
      exact ⟨p, hp, by omega, hpe, hpl⟩

theorem Inv.iterate {num k : Nat} :
    ∀ (n : Nat) {s : State}, Inv num k s → Inv num (k + n) (bodyResult^[n] s)
  | 0, _, h => h
  | n + 1, s, h => by
    rw [Function.iterate_succ_apply]
    have := @Inv.iterate num (k + 1) n _ h.step
    have e : k + 1 + n = k + (n + 1) := by omega
    rwa [e] at this

/-! ## The `while` loop -/

theorem whileLoop_of_num_zero {s : State} (h : s.num = 0) (fuel : Nat) :
    whileLoop fuel s = .ok s := by
  cases fuel <;> simp [whileLoop, h]

theorem whileLoop_succ_of_pos {s : State} (h : 0 < s.num) (fuel : Nat) :
    whileLoop (fuel + 1) s = whileLoop fuel (bodyResult s) := by
  simp [whileLoop, h, loopBody_eq, bind, Except.bind]

/-- When the remaining value has exactly `n` significant bits, the body runs
`n` times: a budget of at least `n` gives the state after `n` passes, a
smaller one is exhausted. -/
theorem whileLoop_exact :
    ∀ (n : Nat) (s : State), s.num < 2 ^ n → (n ≠ 0 → 2 ^ (n - 1) ≤ s.num) →
      ∀ fuel, (n ≤ fuel → whileLoop fuel s = .ok (bodyResult^[n] s)) ∧
              (fuel < n → whileLoop fuel s = .error .outOfFuel)
  | 0, s, hlt, _, fuel => by
    have h0 : s.num = 0 := by simpa using hlt
    exact ⟨fun _ => by simpa using whileLoop_of_num_zero h0 fuel, fun h => by omega⟩
  | n + 1, s, hlt, hge, fuel => by
    have hge1 : 2 ^ n ≤ s.num := by simpa using hge (by omega)
    have hpos : 0 < s.num := Nat.lt_of_lt_of_le (Nat.two_pow_pos n) hge1
    cases fuel with
    | zero =>
      refine ⟨fun h => by omega, fun _ => ?_⟩
      simp [whileLoop, hpos]
    | succ f =>
      have hlt2 : (bodyResult s).num < 2 ^ n := by
        rw [loopBody_num]
        rw [Nat.div_lt_iff_lt_mul (by decide)]
        simpa [Nat.pow_succ] using hlt
      have hge2 : n ≠ 0 → 2 ^ (n - 1) ≤ (bodyResult s).num := by
        intro hn
        rw [loopBody_num, Nat.le_div_iff_mul_le (by decide)]
        have : 2 ^ (n - 1) * 2 = 2 ^ n := by
          rw [← Nat.pow_succ]; congr 1; omega
        omega
      have ih := whileLoop_exact n (bodyResult s) hlt2 hge2 f
      rw [whileLoop_succ_of_pos hpos, Function.iterate_succ_apply]
      exact ⟨fun h => ih.1 (by omega), fun h => ih.2 (by omega)⟩

/-- The top bit of a value with exactly `k + 1` significant bits is set. -/
theorem testBit_of_top {x k : Nat} (hge : 2 ^ k ≤ x) (hlt : x < 2 ^ (k + 1)) :
    x.testBit k = true := by
  rw [Nat.testBit_to_div_mod]
  have h1 : x / 2 ^ k < 2 := by
    rw [Nat.div_lt_iff_lt_mul (Nat.two_pow_pos k)]
    simpa [Nat.pow_succ, Nat.mul_comm] using hlt
  have h2 : 1 ≤ x / 2 ^ k := by
    rw [Nat.le_div_iff_mul_le (Nat.two_pow_pos k)]; simpa using hge
  have : x / 2 ^ k = 1 := by omega
  simp [this]

theorem leadingZeros_le (x : Nat) : ∀ k, leadingZeros x k ≤ k
  | 0 => by simp [leadingZeros]
  | k + 1 => by
    have := leadingZeros_le x k
    unfold leadingZeros; split <;> omega

/-- The bits skipped by `leadingZeros` are below `2 ^ (k - leadingZeros x k)`
when `x < 2 ^ k`, and the bit under them is set. -/
theorem leadingZeros_spec (x : Nat) :
    ∀ k, x < 2 ^ k → x < 2 ^ (k - leadingZeros x k) ∧
      (k - leadingZeros x k ≠ 0 → 2 ^ (k - leadingZeros x k - 1) ≤ x)
  | 0, h => by simpa [leadingZeros] using h
  | k + 1, h => by
    unfold leadingZeros
    by_cases hb : x.testBit k = true
    · rw [if_pos hb]
      refine ⟨by simpa using h, fun _ => ?_⟩
      have : 2 ^ k ≤ x := Nat.testBit_implies_ge hb
      simpa using this
    · rw [if_neg hb]
      have hlt : x < 2 ^ k := by
        by_contra hge
        exact hb (testBit_of_top (Nat.le_of_not_lt hge) h)
      have ih := leadingZeros_spec x k hlt
      have e : k + 1 - (leadingZeros x k + 1) = k - leadingZeros x k := by omega
      rw [e]; exact ih

theorem bitLength_le (num : Nat) : bitLength num ≤ 32 := by
  unfold bitLength; omega

theorem lt_two_pow_bitLength {num : Nat} (h : num < 2 ^ 32) :
    num < 2 ^ bitLength num := (leadingZeros_spec num 32 h).1

theorem two_pow_le_of_bitLength {num : Nat} (h : num < 2 ^ 32) :
    bitLength num ≠ 0 → 2 ^ (bitLength num - 1) ≤ num := (leadingZeros_spec num 32 h).2

theorem whileLoop_initState {num : Nat} (h : num < 2 ^ 32) (fuel : Nat) :
    (bitLength num ≤ fuel → whileLoop fuel (initState num) = .ok (finalState num)) ∧
    (fuel < bitLength num → whileLoop fuel (initState num) = .error .outOfFuel) :=
  whileLoop_exact (bitLength num) (initState num) (lt_two_pow_bitLength h)
    (two_pow_le_of_bitLength h) fuel

theorem finalState_inv (num : Nat) : Inv num (bitLength num) (finalState num) := by
  have := Inv.iterate (bitLength num) (Inv.init num)
  simpa [finalState] using this

theorem countMaxContinuousBit1_eq {num : Nat} (h : num < 2 ^ 32) :
    countMaxContinuousBit1 num = .ok ((finalState num).maxCount, (finalState num).maxStartBit) := by
  unfold countMaxContinuousBit1
  rw [(whileLoop_initState h 32).1 (bitLength_le num)]
  rfl

theorem finalState_num {num : Nat} (h : num < 2 ^ 32) : (finalState num).num = 0 := by
  rw [(finalState_inv num).num_eq, Nat.shiftRight_eq_div_pow]
  exact Nat.div_eq_of_lt (lt_two_pow_bitLength h)

theorem finalState_times_shift (num : Nat) :
    (finalState num).times_shift = bitLength num := (finalState_inv num).shift_eq

/-- At exit `maxCount` bounds the block of 1 bits below every position. -/
theorem finalState_max_ge {num : Nat} (h : num < 2 ^ 32) (j : Nat) :
    (onesBelow num j : Int) ≤ (finalState num).maxCount := by
  rcases Nat.lt_or_ge (bitLength num) j with hlt | hge
  · rw [onesBelow_eq_zero_of_lt (lt_two_pow_bitLength h) j hlt]
    exact (finalState_inv num).maxCount_nonneg
  · exact (finalState_inv num).max_ge j hge

/-- At exit, a positive `maxCount` is the size of the block of 1 bits whose top
bit is `maxStartBit`, and no block that ends lower is as long. -/
theorem finalState_best {num : Nat} (hpos : 0 < (finalState num).maxCount) :
    ∃ p : Nat, (finalState num).maxStartBit = p ∧ p < bitLength num ∧
      (onesBelow num (p + 1) : Int) = (finalState num).maxCount ∧
      ∀ j, j ≤ p → (onesBelow num j : Int) < (finalState num).maxCount :=
  (finalState_inv num).best hpos

theorem onesBelow_pos_of_testBit {num j : Nat} (hb : num.testBit j = true) :
    0 < onesBelow num (j + 1) := by
  simp [onesBelow, hb]

theorem onesBelow_zero_num : ∀ j, onesBelow 0 j = 0
  | 0 => rfl
  | j + 1 => by simp [onesBelow]

/-- Whenever the returned length is at least 2, the bit just under the
returned position is 1: the position is the top bit of the run, not its
lowest bit. -/
theorem bit_below_position_set {num : Nat} (h : num < 2 ^ 32) :
    ∃ (maxLength : Int) (p : Int), countMaxContinuousBit1 num = .ok (maxLength, p) ∧
      (2 ≤ maxLength → ∃ q : Nat, p = q + 1 ∧ num.testBit q = true) := by
  refine ⟨_, _, countMaxContinuousBit1_eq h, fun h2 => ?_⟩
  obtain ⟨p, hp, _, hpe, _⟩ := @finalState_best num (by omega)
  have hle := onesBelow_le num (p + 1)
  refine ⟨p - 1, ?_, onesBelow_bits num (p + 1) (p - 1) (by omega) (by omega)⟩
  rw [hp]; omega

/-! ## Properties of the returned pair -/

/-- C1: for every 32-bit `num` the function returns, and the first component
of the pair is the length of the longest run of consecutive 1 bits: when it is
positive some window of that many bits inside the word is all 1, and no longer
window inside the word is all 1. -/
theorem maxLength_is_longest_run (num : Nat) (h : num < 2 ^ 32) :
    ∃ (len : Nat) (startBit : Int),
      countMaxContinuousBit1 num = .ok ((len : Int), startBit) ∧
      (0 < len → ∃ i, i + len ≤ 32 ∧ AllOnes num i len) ∧
      (∀ i L, len < L → i + L ≤ 32 → ¬ AllOnes num i L) := by
  have hnn := (finalState_inv num).maxCount_nonneg
  obtain ⟨len, hlen⟩ := Int.eq_ofNat_of_zero_le hnn
  refine ⟨len, (finalState num).maxStartBit, ?_, ?_, ?_⟩
  · rw [countMaxContinuousBit1_eq h, hlen]
  · intro hpos
    obtain ⟨p, _, hpk, hpe, _⟩ := @finalState_best num (by omega)
    have hbl := bitLength_le num
    have hle := onesBelow_le num (p + 1)
    have hlenp : onesBelow num (p + 1) = len := by omega
    refine ⟨p + 1 - len, by omega, allOnes_of_onesBelow ?_⟩
    have e : p + 1 - len + len = p + 1 := by omega
    rw [e, hlenp]
  · intro i L hL _ hall
    have h1 := hall.le_onesBelow
    have h2 := finalState_max_ge h (i + L)
    omega

theorem maxLength_is_longest_run_witness :
    (0x3F1FEFFC : Nat) < 2 ^ 32 ∧
    ∃ (len : Nat) (startBit : Int),
      countMaxContinuousBit1 0x3F1FEFFC = .ok ((len : Int), startBit) ∧
      (0 < len → ∃ i, i + len ≤ 32 ∧ AllOnes 0x3F1FEFFC i len) ∧
      (∀ i L, len < L → i + L ≤ 32 → ¬ AllOnes 0x3F1FEFFC i L) :=
  ⟨by decide, maxLength_is_longest_run 0x3F1FEFFC (by decide)⟩

/-- C2 (the code at the failing input): for `num = 3`, whose only run is bits
0..1, the function returns `(2, 1)`; the second component is the top bit of the
run, so bit `startBit - 1 = 0` is 1 and bit `startBit + maxLength - 1 = 2` is 0. -/
theorem startBit_is_run_top_at_three :
    countMaxContinuousBit1 3 = .ok (2, 1) ∧
      Nat.testBit 3 0 = true ∧ Nat.testBit 3 2 = false ∧ ¬ AllOnes 3 1 2 := by
  decide

set_option maxRecDepth 100000 in
/-- C3 (the code at the failing input): `0x3B1EEEEF` has exactly two runs of
the maximal length 4, at bits 0..3 and at bits 17..20; the function returns
`(4, 3)`, the top bit of the lower run and not its start 0. -/
theorem tie_reports_top_of_lower_run :
    countMaxContinuousBit1 0x3B1EEEEF = .ok (4, 3) ∧
      AllOnes 0x3B1EEEEF 0 4 ∧ Nat.testBit 0x3B1EEEEF 4 = false ∧
      AllOnes 0x3B1EEEEF 17 4 ∧ Nat.testBit 0x3B1EEEEF 16 = false ∧
      Nat.testBit 0x3B1EEEEF 21 = false := by
  decide

/-- C4: for every 32-bit `num` the returned `maxLength` is 0 exactly when
`num = 0`, a `maxLength` of 0 comes with `startBit = -1`, and the input 0
gives `(0, -1)`. -/
theorem maxLength_zero_iff (num : Nat) (h : num < 2 ^ 32) :
    (∃ maxLength startBit : Int,
      countMaxContinuousBit1 num = .ok (maxLength, startBit) ∧
      (maxLength = 0 ↔ num = 0) ∧ (maxLength = 0 → startBit = -1)) ∧
    countMaxContinuousBit1 0 = .ok (0, -1) := by
  refine ⟨⟨_, _, countMaxContinuousBit1_eq h, ⟨?_, ?_⟩, (finalState_inv num).none_yet⟩, by decide⟩
  · intro h0
    by_contra hne
    obtain ⟨j, hj⟩ := Nat.ne_zero_implies_bit_true hne
    have h1 := onesBelow_pos_of_testBit hj
    have h2 := finalState_max_ge h (j + 1)
    omega
  · intro h0
    subst h0
    have hnn := (finalState_inv 0).maxCount_nonneg
    by_contra hne
    obtain ⟨p, _, _, hpe, _⟩ := @finalState_best 0 (by omega)
    rw [onesBelow_zero_num] at hpe
    exact hne hpe.symm

theorem maxLength_zero_iff_witness :
    (0x06000000 : Nat) < 2 ^ 32 ∧
    ((∃ maxLength startBit : Int,
      countMaxContinuousBit1 0x06000000 = .ok (maxLength, startBit) ∧
      (maxLength = 0 ↔ 0x06000000 = 0) ∧ (maxLength = 0 → startBit = -1)) ∧
    countMaxContinuousBit1 0 = .ok (0, -1)) :=
  ⟨by decide, maxLength_zero_iff 0x06000000 (by decide)⟩

/-- C5: for every 32-bit `num` the returned `maxLength` lies in `0 .. 32`. -/
theorem maxLength_bounds (num : Nat) (h : num < 2 ^ 32) :
    ∃ maxLength startBit : Int,
      countMaxContinuousBit1 num = .ok (maxLength, startBit) ∧
      0 ≤ maxLength ∧ maxLength ≤ 32 := by
  have hnn := (finalState_inv num).maxCount_nonneg
  refine ⟨_, _, countMaxContinuousBit1_eq h, hnn, ?_⟩
  by_contra hgt
  obtain ⟨p, _, hpk, hpe, _⟩ := @finalState_best num (by omega)
  have hbl := bitLength_le num
  have hle := onesBelow_le num (p + 1)
  omega

theorem maxLength_bounds_witness :
    (0xFFFFFFFF : Nat) < 2 ^ 32 ∧
    ∃ maxLength startBit : Int,
      countMaxContinuousBit1 0xFFFFFFFF = .ok (maxLength, startBit) ∧
      0 ≤ maxLength ∧ maxLength ≤ 32 :=
  ⟨by decide, maxLength_bounds 0xFFFFFFFF (by decide)⟩

/-! ## The scenarios of the demonstration driver -/

set_option maxRecDepth 100000 in
/-- C6 (refuted as stated): on `0x3F1FEFFC` the function does not return
`(8, 8)`. -/
theorem first_scenario_not_eight_eight :
    countMaxContinuousBit1 0x3F1FEFFC ≠ .ok (8, 8) := by
  decide

set_option maxRecDepth 100000 in
/-- C6 (amended): on `0x3F1FEFFC` the function returns `maxLength = 10`, the
length of the run at bits 2..11, which is the longest run of that word. -/
theorem first_scenario_maxLength :
    (∃ startBit : Int, countMaxContinuousBit1 0x3F1FEFFC = .ok (10, startBit)) ∧
      AllOnes 0x3F1FEFFC 2 10 ∧
      Nat.testBit 0x3F1FEFFC 1 = false ∧ Nat.testBit 0x3F1FEFFC 12 = false :=
  ⟨⟨11, by decide⟩, by decide, by decide, by decide⟩

set_option maxRecDepth 100000 in
/-- C7 (the code at the failing input): on `0x06000000`, whose only run is
bits 25..26, the function returns `(2, 26)` and not `(2, 25)`. -/
theorem third_scenario_returns_top :
    countMaxContinuousBit1 0x06000000 = .ok (2, 26) ∧
      countMaxContinuousBit1 0x06000000 ≠ .ok (2, 25) ∧
      AllOnes 0x06000000 25 2 ∧ Nat.testBit 0x06000000 24 = false ∧
      Nat.testBit 0x06000000 27 = false := by
  decide

set_option maxRecDepth 100000 in
/-- C8: on the alternating word `0x55555555` the function returns `(1, 0)`. -/
theorem alternating_scenario :
    countMaxContinuousBit1 0x55555555 = .ok (1, 0) := by
  decide

/-! ## Early exit against the full 32-position scan -/

theorem scanAllBits_eq : ∀ (n : Nat) (s : State),
    scanAllBits n s = .ok (bodyResult^[n] s)
  | 0, _ => rfl
  | n + 1, s => by
    rw [scanAllBits, loopBody_eq, Function.iterate_succ_apply]
    exact scanAllBits_eq n (bodyResult s)

/-- Once the remaining value is 0, further passes of the body leave it 0 and
do not touch `maxCount` or `maxStartBit`. -/
theorem bodyResult_of_num_zero {s : State} (h : s.num = 0) :
    (bodyResult s).num = 0 ∧ (bodyResult s).maxCount = s.maxCount ∧
      (bodyResult s).maxStartBit = s.maxStartBit := by
  simp [bodyResult, h]

theorem iterate_of_num_zero : ∀ (n : Nat) {s : State}, s.num = 0 →
    (bodyResult^[n] s).maxCount = s.maxCount ∧
      (bodyResult^[n] s).maxStartBit = s.maxStartBit
  | 0, _, _ => ⟨rfl, rfl⟩
  | n + 1, s, h => by
    obtain ⟨h0, h1, h2⟩ := bodyResult_of_num_zero h
    have ih := iterate_of_num_zero n h0
    rw [Function.iterate_succ_apply, ih.1, ih.2, h1, h2]
    exact ⟨rfl, rfl⟩

/-- C9: for every 32-bit `num` the early-exit loop returns a pair, and it is
the pair obtained by applying the same loop body at all 32 bit positions. -/
theorem early_exit_eq_full_scan (num : Nat) (h : num < 2 ^ 32) :
    countMaxContinuousBit1 num = countByFullScan num ∧
      ∃ r, countMaxContinuousBit1 num = .ok r := by
  refine ⟨?_, _, countMaxContinuousBit1_eq h⟩
  rw [countMaxContinuousBit1_eq h]
  unfold countByFullScan
  rw [scanAllBits_eq]
  have e : 32 = (32 - bitLength num) + bitLength num := by
    have := bitLength_le num; omega
  have hit : bodyResult^[32] (initState num)
      = bodyResult^[32 - bitLength num] (finalState num) := by
    conv_lhs => rw [e]
    rw [Function.iterate_add_apply]; rfl
  have hz := iterate_of_num_zero (32 - bitLength num) (finalState_num h)
  rw [hit]
  show _ = Except.ok (_, _)
  rw [hz.1, hz.2]

theorem early_exit_eq_full_scan_witness :
    (0x3B1EEEEF : Nat) < 2 ^ 32 ∧
    (countMaxContinuousBit1 0x3B1EEEEF = countByFullScan 0x3B1EEEEF ∧
      ∃ r, countMaxContinuousBit1 0x3B1EEEEF = .ok r) :=
  ⟨by decide, early_exit_eq_full_scan 0x3B1EEEEF (by decide)⟩

/-! ## Termination -/

/-- C10: every pass of the body on a nonzero remaining value succeeds and
strictly decreases it; on a 32-bit `num` the loop exits with remaining value 0
after exactly `bitLength num` passes (counted by `times_shift`): that many
passes are enough, fewer are not, and `bitLength num` is at most 32, is 0 for
`num = 0`, and otherwise is the index of the highest set bit plus one. -/
theorem loop_runs_bitLength_times (num : Nat) (h : num < 2 ^ 32) :
    (∀ s : State, 0 < s.num → ∃ s', loopBody s = .ok s' ∧ s'.num < s.num) ∧
    ∃ (s : State) (n : Nat),
      whileLoop 32 (initState num) = .ok s ∧ s.num = 0 ∧ s.times_shift = n ∧
      n = bitLength num ∧ n ≤ 32 ∧
      (∀ fuel, n ≤ fuel → whileLoop fuel (initState num) = .ok s) ∧
      (∀ fuel, fuel < n → whileLoop fuel (initState num) = .error .outOfFuel) ∧
      (num = 0 → n = 0) ∧
      (num ≠ 0 → 0 < n ∧ num.testBit (n - 1) = true) ∧
      (∀ j, n ≤ j → num.testBit j = false) := by
  have hlt := lt_two_pow_bitLength h
  have hge := two_pow_le_of_bitLength h
  have hle := bitLength_le num
  refine ⟨fun s hs => ⟨bodyResult s, loopBody_eq s, ?_⟩,
    finalState num, bitLength num, (whileLoop_initState h 32).1 hle, finalState_num h,
    finalState_times_shift num, rfl, hle,
    fun fuel hf => (whileLoop_initState h fuel).1 hf,
    fun fuel hf => (whileLoop_initState h fuel).2 hf, ?_, ?_, ?_⟩
  · rw [loopBody_num]; omega
  · intro h0
    by_contra hn
    have := hge hn
    have hp : 0 < 2 ^ (bitLength num - 1) := Nat.two_pow_pos _
    omega
  · intro hne
    have hn : bitLength num ≠ 0 := by
      intro h0
      rw [h0] at hlt
      simp at hlt
      exact hne hlt
    refine ⟨Nat.pos_of_ne_zero hn, testBit_of_top (hge hn) ?_⟩
    have e : bitLength num - 1 + 1 = bitLength num := by omega
    rw [e]; exact hlt
  · intro j hj
    exact Nat.testBit_lt_two_pow
      (Nat.lt_of_lt_of_le hlt (Nat.pow_le_pow_right (by decide) hj))

theorem loop_runs_bitLength_times_witness :
    (0x06000000 : Nat) < 2 ^ 32 ∧
    ((∀ s : State, 0 < s.num → ∃ s', loopBody s = .ok s' ∧ s'.num < s.num) ∧
    ∃ (s : State) (n : Nat),
      whileLoop 32 (initState 0x06000000) = .ok s ∧ s.num = 0 ∧ s.times_shift = n ∧
      n = bitLength 0x06000000 ∧ n ≤ 32 ∧
      (∀ fuel, n ≤ fuel → whileLoop fuel (initState 0x06000000) = .ok s) ∧
      (∀ fuel, fuel < n → whileLoop fuel (initState 0x06000000) = .error .outOfFuel) ∧
      (0x06000000 = 0 → n = 0) ∧
      (0x06000000 ≠ 0 → 0 < n ∧ Nat.testBit 0x06000000 (n - 1) = true) ∧
      (∀ j, n ≤ j → Nat.testBit 0x06000000 j = false)) :=
  ⟨by decide, loop_runs_bitLength_times 0x06000000 (by decide)⟩

/-! ## The returned pair of a nonzero word -/

theorem finalState_maxCount_pos {num : Nat} (h : num < 2 ^ 32) (hne : num ≠ 0) :
    0 < (finalState num).maxCount := by
  obtain ⟨j, hj⟩ := Nat.ne_zero_implies_bit_true hne
  have h1 := onesBelow_pos_of_testBit hj
  have h2 := finalState_max_ge h (j + 1)
  omega

/-- The pair returned for a nonzero 32-bit word, in terms of `onesBelow`: the
length is the largest block, and the position is the lowest top bit of a block
of that length. -/
theorem countMaxContinuousBit1_nonzero {num : Nat} (h : num < 2 ^ 32) (hne : num ≠ 0) :
    ∃ len p : Nat, countMaxContinuousBit1 num = .ok ((len : Int), (p : Int)) ∧
      0 < len ∧ p < 32 ∧ onesBelow num (p + 1) = len ∧
      (∀ j, onesBelow num j ≤ len) ∧ (∀ j, j ≤ p → onesBelow num j < len) := by
  have hpos := finalState_maxCount_pos h hne
  obtain ⟨p, hp, hpk, hpe, hpl⟩ := finalState_best hpos
  have hbl := bitLength_le num
  refine ⟨onesBelow num (p + 1), p, ?_, ?_, by omega, rfl, ?_, ?_⟩
  · rw [countMaxContinuousBit1_eq h, hpe, hp]
  · omega
  · intro j
    have := finalState_max_ge h j
    omega
  · intro j hj
    have := hpl j hj
    omega

/-- The description of `countMaxContinuousBit1_nonzero` fixes the pair. -/
theorem result_unique {num len p len' p' : Nat}
    (he : onesBelow num (p + 1) = len) (hmax : ∀ j, onesBelow num j ≤ len)
    (hlow : ∀ j, j ≤ p → onesBelow num j < len)
    (he' : onesBelow num (p' + 1) = len') (hmax' : ∀ j, onesBelow num j ≤ len')
    (hlow' : ∀ j, j ≤ p' → onesBelow num j < len') :
    len = len' ∧ p = p' := by
  have h1 := hmax (p' + 1)
  have h2 := hmax' (p + 1)
  have hl : len = len' := by omega
  refine ⟨hl, ?_⟩
  rcases Nat.lt_trichotomy p p' with hlt | heq | hgt
  · have := hlow' (p + 1) (by omega); omega
  · exact heq
  · have := hlow (p' + 1) (by omega); omega

theorem onesBelow_two_mul (num : Nat) : ∀ j, onesBelow (2 * num) (j + 1) = onesBelow num j
  | 0 => by simp [onesBelow]
  | j + 1 => by
    have ih := onesBelow_two_mul num j
    have hb : (2 * num).testBit (j + 1) = num.testBit j := by
      rw [Nat.testBit_succ]; simp
    rw [onesBelow, hb, ih]
    rfl

/-! ## Absence of failure -/

theorem loopBodyWith_builtin (s : State) : loopBodyWith builtin_clz s = loopBody s := rfl

/-- The body consults the intrinsic only at a remaining value whose lowest bit
is set: changing the intrinsic elsewhere does not change the body. -/
theorem loopBodyWith_congr (clz clz' : Nat → Except Fault Int) (s : State)
    (hagree : ∀ x, x &&& 1 ≠ 0 → clz x = clz' x) :
    loopBodyWith clz s = loopBodyWith clz' s := by
  unfold loopBodyWith
  by_cases hodd : s.num &&& 1 ≠ 0
  · rw [if_pos hodd, if_pos hodd, hagree s.num hodd]
  · rw [if_neg hodd, if_neg hodd]

theorem builtin_clz_of_low_bit {x : Nat} (h : x &&& 1 ≠ 0) :
    builtin_clz x = .ok (leadingZeros x 32 : Int) := by
  have hne : x ≠ 0 := by
    rintro rfl
    simp at h
  simp [builtin_clz, hne]

/-- C11: the function returns a pair for every 32-bit input.  The intrinsic
`__builtin_clz` is undefined exactly at 0; the loop body consults it only at a
remaining value whose lowest bit is set (replacing the intrinsic by any other
function that agrees with it on such values leaves the body unchanged), it is
defined on every such value, and so the body succeeds in every state. -/
theorem cannot_fail (num : Nat) (h : num < 2 ^ 32) :
    (∃ r, countMaxContinuousBit1 num = .ok r) ∧
    (∀ x, builtin_clz x = .error .clzOfZero ↔ x = 0) ∧
    (∀ (clz : Nat → Except Fault Int) (s : State),
      (∀ x, x &&& 1 ≠ 0 → clz x = builtin_clz x) → loopBodyWith clz s = loopBody s) ∧
    (∀ x, x &&& 1 ≠ 0 → x ≠ 0 ∧ ∃ z, builtin_clz x = .ok z) ∧
    (∀ s : State, ∃ s', loopBody s = .ok s') := by
  refine ⟨⟨_, countMaxContinuousBit1_eq h⟩, ?_, ?_, ?_, fun s => ⟨_, loopBody_eq s⟩⟩
  · intro x
    by_cases hx : x = 0 <;> simp [builtin_clz, hx]
  · intro clz s hagree
    rw [← loopBodyWith_builtin]
    exact loopBodyWith_congr clz builtin_clz s hagree
  · intro x hx
    refine ⟨?_, _, builtin_clz_of_low_bit hx⟩
    rintro rfl
    simp at hx

theorem cannot_fail_witness :
    (0xFFFFFFFF : Nat) < 2 ^ 32 ∧
    ((∃ r, countMaxContinuousBit1 0xFFFFFFFF = .ok r) ∧
    (∀ x, builtin_clz x = .error .clzOfZero ↔ x = 0) ∧
    (∀ (clz : Nat → Except Fault Int) (s : State),
      (∀ x, x &&& 1 ≠ 0 → clz x = builtin_clz x) → loopBodyWith clz s = loopBody s) ∧
    (∀ x, x &&& 1 ≠ 0 → x ≠ 0 ∧ ∃ z, builtin_clz x = .ok z) ∧
    (∀ s : State, ∃ s', loopBody s = .ok s')) :=
  ⟨by decide, cannot_fail 0xFFFFFFFF (by decide)⟩

/-! ## The returned position -/

/-- C12: for every 32-bit `num` the returned `startBit` is -1 exactly when
`num = 0`, and for a nonzero `num` it is a bit index between 0 and 31. -/
theorem startBit_range (num : Nat) (h : num < 2 ^ 32) :
    ∃ maxLength startBit : Int,
      countMaxContinuousBit1 num = .ok (maxLength, startBit) ∧
      (startBit = -1 ↔ num = 0) ∧
      (num ≠ 0 → 0 ≤ startBit ∧ startBit ≤ 31) := by
  by_cases hne : num = 0
  · subst hne
    exact ⟨0, -1, by decide, by simp, by simp⟩
  · obtain ⟨len, p, hr, _, hp, _⟩ := countMaxContinuousBit1_nonzero h hne
    refine ⟨len, p, hr, ⟨fun hm => ?_, fun h0 => absurd h0 hne⟩, fun _ => ⟨?_, ?_⟩⟩
    · omega
    · omega
    · omega

theorem startBit_range_witness :
    (0x3B1EEEEF : Nat) < 2 ^ 32 ∧
    ∃ maxLength startBit : Int,
      countMaxContinuousBit1 0x3B1EEEEF = .ok (maxLength, startBit) ∧
      (startBit = -1 ↔ 0x3B1EEEEF = 0) ∧
      (0x3B1EEEEF ≠ 0 → 0 ≤ startBit ∧ startBit ≤ 31) :=
  ⟨by decide, startBit_range 0x3B1EEEEF (by decide)⟩

/-! ## The run-start marker -/

/-- C13 (the code at the failing input): on `num = 5` (bits 0 and 2 set) the
first pass sees a 1 at bit position 0 with the marker unset and sets the marker
to 2, the highest set bit of the remaining value, not to the position 0; the
third pass starts the run at position 2 and sets the marker to 0. -/
theorem marker_is_not_position_at_five :
    loopBody (initState 5) = .ok { num := 2, count := 1, times_shift := 1, maxCount := 1,
                                   startBit := 2, maxStartBit := 0 } ∧
    (loopBody (initState 5) >>= loopBody) =
      .ok { num := 1, count := 0, times_shift := 2, maxCount := 1,
            startBit := -1, maxStartBit := 0 } ∧
    (loopBody (initState 5) >>= loopBody >>= loopBody) =
      .ok { num := 0, count := 1, times_shift := 3, maxCount := 1,
            startBit := 0, maxStartBit := 0 } := by
  decide

/-! ## The position as the top bit of the lowest longest run -/

/-- C14: for every nonzero 32-bit `num` the returned pair `(len, pos)` has
`pos - len + 1 ≥ 0`, bits `pos - len + 1 .. pos` all 1, bit `pos + 1` clear when
`pos < 31`, bit `pos - len` clear when `pos - len ≥ 0`, and no window of `len`
consecutive 1 bits ending at an index below `pos`. -/
theorem position_is_top_of_lowest_longest_run (num : Nat) (h : num < 2 ^ 32)
    (hne : num ≠ 0) :
    ∃ len pos : Nat,
      countMaxContinuousBit1 num = .ok ((len : Int), (pos : Int)) ∧
      0 < len ∧ len ≤ pos + 1 ∧ pos ≤ 31 ∧
      AllOnes num (pos + 1 - len) len ∧
      (pos < 31 → num.testBit (pos + 1) = false) ∧
      (len ≤ pos → num.testBit (pos - len) = false) ∧
      (∀ i, i + len ≤ pos → ¬ AllOnes num i len) := by
  obtain ⟨len, p, hr, hpos, hp, he, hmax, hlow⟩ := countMaxContinuousBit1_nonzero h hne
  have hle := onesBelow_le num (p + 1)
  refine ⟨len, p, hr, hpos, by omega, by omega, ?_, ?_, ?_, ?_⟩
  · apply allOnes_of_onesBelow
    have e : p + 1 - len + len = p + 1 := by omega
    rw [e, he]
  · intro _
    by_contra hb
    have hb : num.testBit (p + 1) = true := by simpa using hb
    have h2 : onesBelow num (p + 1 + 1) = onesBelow num (p + 1) + 1 := by
      simp [onesBelow, hb]
    have := hmax (p + 1 + 1)
    omega
  · intro hlp
    exact onesBelow_stop num (p + 1) (p - len) (by omega)
  · intro i hi hall
    have h1 := hall.le_onesBelow
    have h2 := hlow (i + len) hi
    omega

set_option maxRecDepth 100000 in
theorem position_is_top_of_lowest_longest_run_witness :
    ((0x3B1EEEEF : Nat) < 2 ^ 32 ∧ (0x3B1EEEEF : Nat) ≠ 0) ∧
    ∃ len pos : Nat,
      countMaxContinuousBit1 0x3B1EEEEF = .ok ((len : Int), (pos : Int)) ∧
      0 < len ∧ len ≤ pos + 1 ∧ pos ≤ 31 ∧
      AllOnes 0x3B1EEEEF (pos + 1 - len) len ∧
      (pos < 31 → Nat.testBit 0x3B1EEEEF (pos + 1) = false) ∧
      (len ≤ pos → Nat.testBit 0x3B1EEEEF (pos - len) = false) ∧
      (∀ i, i + len ≤ pos → ¬ AllOnes 0x3B1EEEEF i len) :=
  ⟨⟨by decide, by decide⟩,
    position_is_top_of_lowest_longest_run 0x3B1EEEEF (by decide) (by decide)⟩

/-! ## Relations between inputs -/

/-- C15: for 32-bit `a` and `b` with `a AND b = a`, the `maxLength` returned
for `a` is at most the one returned for `b`. -/
theorem maxLength_mono (a b : Nat) (ha : a < 2 ^ 32) (hb : b < 2 ^ 32)
    (hab : a &&& b = a) :
    ∃ la pa lb pb : Int,
      countMaxContinuousBit1 a = .ok (la, pa) ∧
      countMaxContinuousBit1 b = .ok (lb, pb) ∧ la ≤ lb := by
  refine ⟨_, _, _, _, countMaxContinuousBit1_eq ha, countMaxContinuousBit1_eq hb, ?_⟩
  have hnb := (finalState_inv b).maxCount_nonneg
  have hsub : ∀ j, a.testBit j = true → b.testBit j = true := by
    intro j hj
    have hand := Nat.testBit_and a b j
    rw [hab, hj] at hand
    have := hand.symm
    simp only [Bool.and_eq_true] at this
    exact this.2
  by_cases hpos : 0 < (finalState a).maxCount
  · obtain ⟨p, _, _, hpe, _⟩ := finalState_best hpos
    have hle := onesBelow_le a (p + 1)
    have hall : AllOnes a (p + 1 - onesBelow a (p + 1)) (onesBelow a (p + 1)) := by
      apply allOnes_of_onesBelow
      have e : p + 1 - onesBelow a (p + 1) + onesBelow a (p + 1) = p + 1 := by omega
      rw [e]
    have hallb : AllOnes b (p + 1 - onesBelow a (p + 1)) (onesBelow a (p + 1)) := by
      intro j hj
      exact hsub _ (hall j hj)
    have h1 := hallb.le_onesBelow
    have h2 := finalState_max_ge hb
      (p + 1 - onesBelow a (p + 1) + onesBelow a (p + 1))
    omega
  · omega

set_option maxRecDepth 100000 in
theorem maxLength_mono_witness :
    ((0x06000000 : Nat) < 2 ^ 32 ∧ (0x3F1FEFFC : Nat) < 2 ^ 32 ∧
      0x06000000 &&& 0x3F1FEFFC = 0x06000000) ∧
    ∃ la pa lb pb : Int,
      countMaxContinuousBit1 0x06000000 = .ok (la, pa) ∧
      countMaxContinuousBit1 0x3F1FEFFC = .ok (lb, pb) ∧ la ≤ lb :=
  ⟨⟨by decide, by decide, by decide⟩,
    maxLength_mono 0x06000000 0x3F1FEFFC (by decide) (by decide) (by decide)⟩

/-- C16: for a nonzero `num < 2 ^ 31` on which the function returns
`(len, pos)`, it returns `(len, pos + 1)` on `2 * num`. -/
theorem shift_left_moves_position (num : Nat) (hne : num ≠ 0) (h : num < 2 ^ 31)
    (len pos : Int) (hr : countMaxContinuousBit1 num = .ok (len, pos)) :
    countMaxContinuousBit1 (2 * num) = .ok (len, pos + 1) := by
  have h32 : num < 2 ^ 32 := by omega
  have h2 : 2 * num < 2 ^ 32 := by omega
  have hne2 : 2 * num ≠ 0 := by omega
  obtain ⟨l, p, hr1, hpos, hp, he, hmax, hlow⟩ := countMaxContinuousBit1_nonzero h32 hne
  obtain ⟨l', p', hr2, hpos', hp', he', hmax', hlow'⟩ :=
    countMaxContinuousBit1_nonzero h2 hne2
  rw [hr1] at hr
  injection hr with hpair
  injection hpair with hl hq
  -- the description of the pair for `2 * num`, read on `num`
  have hp'0 : p' ≠ 0 := by
    rintro rfl
    have : onesBelow (2 * num) (0 + 1) = 0 := by simp [onesBelow]
    omega
  obtain ⟨q, rfl⟩ : ∃ q, p' = q + 1 := ⟨p' - 1, by omega⟩
  have he'' : onesBelow num (q + 1) = l' := by rw [← onesBelow_two_mul]; exact he'
  have hmax'' : ∀ j, onesBelow num j ≤ l' := fun j => by
    rw [← onesBelow_two_mul]; exact hmax' (j + 1)
  have hlow'' : ∀ j, j ≤ q → onesBelow num j < l' := fun j hj => by
    rw [← onesBelow_two_mul]; exact hlow' (j + 1) (by omega)
  obtain ⟨hll, hpq⟩ := result_unique he hmax hlow he'' hmax'' hlow''
  rw [hr2, ← hl, ← hq, hll, hpq]
  push_cast
  rfl

set_option maxRecDepth 100000 in
theorem shift_left_moves_position_witness :
    ((0x06000000 : Nat) ≠ 0 ∧ (0x06000000 : Nat) < 2 ^ 31 ∧
      countMaxContinuousBit1 0x06000000 = .ok (2, 26)) ∧
    countMaxContinuousBit1 (2 * 0x06000000) = .ok (2, 26 + 1) :=
  ⟨⟨by decide, by decide, by decide⟩,
    shift_left_moves_position 0x06000000 (by decide) (by decide) 2 26 (by decide)⟩

end Bit1Count
